import Mathlib

/-!
Shallow embedding of the PDF page-content extraction pipeline of this
repository.  The pipeline appears twice in the source, in
`mineru_alternative.py` (`main`, lines 114-231) and in `server.py`
(`extract_pdf_images_and_text`, lines 504-599), sharing the helper
`ocr_extract_lines_with_positions` (identical text in both files).

Modelling conventions:
* Page coordinates and OCR pixel coordinates are modelled as `Int`
  (the claims only compare them; fractional values play no role).
* OCR confidences are modelled as `Int`; a token whose `conf` string does
  not parse as a number carries `none` (the code maps it to `-1.0`).
* The external collaborators (PyMuPDF page decoding, rasterization,
  pytesseract) are oracles: a `Page` carries its decoded blocks and the
  word-token lists pytesseract would return for the page image under
  `--psm 6` and `--psm 11`.
* File-system effects are logged: every `pix.save` / `save_clip_as_png`
  call appends one `(identity, fileName)` entry to a `writes` log, and
  every materialization of an identity-bearing image block appends one
  `(xref, fileName)` entry to a `mats` log, so that the I/O behaviour the
  claims talk about is visible in the pure model.
-/

/-! ### Python string primitives -/

/-- The characters Python's `str.strip()` removes, modelled by
`Char.isWhitespace`. -/
def pyWs (c : Char) : Bool := c.isWhitespace

/-- `str.strip()` on a character list: drop whitespace from both ends. -/
def stripChars (l : List Char) : List Char :=
  ((l.dropWhile pyWs).reverse.dropWhile pyWs).reverse

/-- Python's `str.strip()`. -/
def pyStrip (s : String) : String := ⟨stripChars s.data⟩

/-- Python's `sep.join(l)`. -/
def pyJoin (sep : String) : List String → String
  | [] => ""
  | a :: as => as.foldl (fun acc x => acc ++ sep ++ x) a

/-- `f"IMAGE_{n:04d}.png"`: decimal, left-padded with zeros to at least
four digits. -/
def pad4 (n : Nat) : String :=
  let s := toString n
  String.mk (List.replicate (4 - s.length) '0') ++ s

/-- The image file name synthesized for sequence number `n`. -/
def imgName (n : Nat) : String := "IMAGE_" ++ pad4 n ++ ".png"

/-! ### The stable sort used by `list.sort(key=...)`

Python's `list.sort` is a stable sort; with a key function it orders
elements by strict `<` on keys and keeps the original order of elements
with equal keys.  We model it as a stable insertion sort parameterized by
the strict comparison `lt` derived from the key tuple. -/

/-- Insert `a` before the first element strictly greater than it. -/
def insertSorted {α : Type} (lt : α → α → Bool) (a : α) : List α → List α
  | [] => [a]
  | b :: bs => if lt a b then a :: b :: bs else b :: insertSorted lt a bs

/-- Stable sort by the strict comparison `lt` (Python `list.sort(key=...)`). -/
def sortStable {α : Type} (lt : α → α → Bool) (l : List α) : List α :=
  l.foldl (fun acc a => insertSorted lt a acc) []

/-! ### OCR line reconstruction

`ocr_extract_lines_with_positions` (identical in `server.py` lines
455-501 and `mineru_alternative.py` lines 57-111): filter word tokens by
nonempty stripped text and confidence, group consecutive tokens sharing
the `(block_num, par_num, line_num)` triple into lines, then sort the
lines by `(top, left)`. -/

/-- One word token from `pytesseract.image_to_data`.  `text` models
`data["text"][i] or ""` (the engine's `None` is the empty string);
`conf` is the parsed confidence, `none` when `float(conf_str)` raises. -/
structure OCRToken where
  text : String
  conf : Option Int
  left : Int
  top : Int
  blockNum : Int
  parNum : Int
  lineNum : Int
deriving DecidableEq

/-- `(data["block_num"][i], data["par_num"][i], data["line_num"][i])`. -/
def tokKey (t : OCRToken) : Int × Int × Int := (t.blockNum, t.parNum, t.lineNum)

/-- `try: conf = float(conf_str) except Exception: conf = -1.0`. -/
def confVal (t : OCRToken) : Int :=
  match t.conf with
  | some c => c
  | none => -1

/-- The loop's `current_key / current_words / current_top / current_left`
state (valid only while `current_key is not None`). -/
structure OCRGroup where
  key : Int × Int × Int
  words : List String
  top : Int
  left : Int
deriving DecidableEq

/-- One reconstructed OCR line.  The grouping key is retained on the
emitted line so that the provenance of each line is visible to the
specification; the program itself appends only `(top, left, text)` to
`items`, obtained here by projecting the key away. -/
structure RawLine where
  key : Int × Int × Int
  top : Int
  left : Int
  text : String
deriving DecidableEq

/-- Flushing the current line: emit `(top, left, " ".join(words).strip())`
when the key is set, the word list is nonempty, and the joined text is
nonempty after stripping. -/
def flushGroup : Option OCRGroup → List RawLine
  | none => []
  | some g =>
    if g.words = [] then []
    else
      let lineText := pyStrip (pyJoin " " g.words)
      if lineText = "" then []
      else [⟨g.key, g.top, g.left, lineText⟩]

/-- The token loop of `ocr_extract_lines_with_positions`: skip tokens with
empty stripped text or confidence below `minConf`; a surviving token
either starts a new line group (flushing the previous one) or extends the
current group, keeping the minimum `top` / `left`. -/
def ocrLoop (minConf : Int) : List OCRToken → Option OCRGroup → List RawLine
  | [], g => flushGroup g
  | tok :: rest, g =>
    let text := pyStrip tok.text
    if text = "" ∨ confVal tok < minConf then ocrLoop minConf rest g
    else
      match g with
      | none => ocrLoop minConf rest (some ⟨tokKey tok, [text], tok.top, tok.left⟩)
      | some gr =>
        if tokKey tok = gr.key then
          ocrLoop minConf rest
            (some ⟨gr.key, gr.words ++ [text], min gr.top tok.top, min gr.left tok.left⟩)
        else
          flushGroup (some gr) ++
            ocrLoop minConf rest (some ⟨tokKey tok, [text], tok.top, tok.left⟩)

/-- The line list accumulated by the loop (before the final sort). -/
def ocrRawLines (toks : List OCRToken) (minConf : Int) : List RawLine :=
  ocrLoop minConf toks none

/-- `items.sort(key=lambda t: (t[0], t[1]))`: strict lexicographic
comparison on `(top, left)`. -/
def ltLine (a b : Int × Int × String) : Bool :=
  decide (a.1 < b.1 ∨ (a.1 = b.1 ∧ a.2.1 < b.2.1))

/-- `ocr_extract_lines_with_positions` (minus the pytesseract call, whose
response is the `toks` argument): build lines from the word tokens, then
sort them by `(top, left)`.  Returns `(top, left, text)` triples exactly
as the program does. -/
def ocr_extract_lines_with_positions (toks : List OCRToken) (minConf : Int) :
    List (Int × Int × String) :=
  sortStable ltLine ((ocrRawLines toks minConf).map (fun r => (r.top, r.left, r.text)))

/-! ### Characterization of the OCR grouping

The loop above groups *consecutive* surviving tokens that share the
`(block_num, par_num, line_num)` triple.  We characterize it as:
filter the tokens, split the survivors into maximal runs of equal
triples, and turn each run into (at most) one line. -/

/-- The survival test of the loop, as a predicate on tokens:
nonempty stripped text and confidence not below the threshold. -/
def survives (minConf : Int) (t : OCRToken) : Bool :=
  !(decide (pyStrip t.text = "" ∨ confVal t < minConf))

/-- Split a token list into maximal runs of consecutive tokens sharing
the same grouping triple; each run is `(first token, remaining tokens)`. -/
def chunkRuns : List OCRToken → List (OCRToken × List OCRToken)
  | [] => []
  | t :: ts =>
    match chunkRuns ts with
    | [] => [(t, [])]
    | (h, r) :: rs =>
      if tokKey t = tokKey h then (t, h :: r) :: rs else (t, []) :: (h, r) :: rs

/-- The stripped texts of a run's member tokens, in emission order. -/
def chunkWords (c : OCRToken × List OCRToken) : List String :=
  pyStrip c.1.text :: c.2.map (fun t => pyStrip t.text)

/-- The line a run yields: member texts joined by a single space, `top`
and `left` the minima over the member tokens; dropped if the joined text
strips to empty. -/
def chunkLine (c : OCRToken × List OCRToken) : List RawLine :=
  let lineText := pyStrip (pyJoin " " (chunkWords c))
  if lineText = "" then []
  else
    [⟨tokKey c.1, c.2.foldl (fun a t => min a t.top) c.1.top,
      c.2.foldl (fun a t => min a t.left) c.1.left, lineText⟩]

/-- The loop state reached after consuming the surviving run
`t :: ts` (all with the key of `t`). -/
def groupOf (t : OCRToken) (ts : List OCRToken) : OCRGroup :=
  ⟨tokKey t, chunkWords (t, ts),
   ts.foldl (fun a u => min a u.top) t.top,
   ts.foldl (fun a u => min a u.left) t.left⟩

/-! ### Decoded page model

`page.get_text("rawdict")` exposes ordered blocks with a type code,
bounding box, nested lines/spans for text blocks, and an `xref` for
embedded raster images.  A rawdict bounding box is always a 4-tuple
(hence truthy in Python); dictionary lookups with defaults are modelled
with `Option` and `getD`. -/

/-- A bounding box `[x0, y0, x1, y1]` in page coordinates;
`bbox[1]` is the top (`y0`), `bbox[0]` the left (`x0`). -/
structure BBox where
  x0 : Int
  y0 : Int
  x1 : Int
  y1 : Int
deriving DecidableEq

/-- `block.get("bbox", [0, 0, 0, 0])`. -/
def defaultBBox : BBox := ⟨0, 0, 0, 0⟩

/-- One span of a native text line; `span.get("text", "")`. -/
structure Span where
  text : String
deriving DecidableEq

/-- One native text line; `line.get("bbox", bbox)` falls back to the
block's bounding box when absent. -/
structure TextLine where
  bbox : Option BBox
  spans : List Span
deriving DecidableEq

/-- One rawdict block: `type` code (0 text, 1 image, otherwise vector
drawing etc.), bounding box, nested lines, and the embedded image
`xref` (absent for non-image blocks; 0 for inline images). -/
structure Block where
  btype : Option Int
  bbox : Option BBox
  lines : List TextLine
  xref : Option Int
deriving DecidableEq

/-- One page: its decoded blocks plus the pytesseract responses for the
full-page render under `--psm 6` and `--psm 11` (the OCR engine is an
external oracle; the rendered bitmap is determined by the page). -/
structure Page where
  blocks : List Block
  ocrPsm6 : List OCRToken
  ocrPsm11 : List OCRToken
deriving DecidableEq

/-- The tag of a content item: `"text"` or `"image"`. -/
inductive Kind where
  | text
  | image
deriving DecidableEq

/-- The tie-break rank in the merge sort key:
`0 if t[2] == "text" else 1`. -/
def kindRank : Kind → Nat
  | Kind.text => 0
  | Kind.image => 1

/-- One entry of `content_items`: `(y, x, kind, payload)`. -/
structure Item where
  y : Int
  x : Int
  kind : Kind
  payload : String
deriving DecidableEq

/-- `content_items.sort(key=lambda t: (t[0], t[1], 0 if t[2] == "text" else 1))`:
strict lexicographic comparison of the sort keys. -/
def ltItem (a b : Item) : Bool :=
  decide (a.y < b.y ∨ (a.y = b.y ∧
    (a.x < b.x ∨ (a.x = b.x ∧ kindRank a.kind < kindRank b.kind))))

/-- The text items a type-0 block contributes: one item per line whose
span concatenation strips to a nonempty string. -/
def textLineItems (bboxD : BBox) (lines : List TextLine) : List Item :=
  lines.flatMap (fun line =>
    let lineText := pyStrip (pyJoin "" (line.spans.map (fun s => s.text)))
    let lb := line.bbox.getD bboxD
    if lineText = "" then [] else [⟨lb.y0, lb.x0, Kind.text, lineText⟩])

/-- Rendering one merged item to an output line: text items literally,
image items as `[<fileName>]`. -/
def renderItem (i : Item) : String :=
  match i.kind with
  | Kind.text => i.payload
  | Kind.image => "[" ++ i.payload ++ "]"

/-- The document-scoped mutable state: the image counter and the
`xref_to_filename` dictionary (as an association list; keys are unique
because an entry is only added after a failed lookup). -/
structure ExtractState where
  counter : Nat
  xrefMap : List (Int × String)
deriving DecidableEq

/-- Dictionary lookup in `xref_to_filename`. -/
def lookupX : List (Int × String) → Int → Option String
  | [], _ => none
  | (k, v) :: rest, x => if x = k then some v else lookupX rest x

/-- What one block contributes: content items, PNG files written (with
the identity they came from, `none` for crop-derived files),
materializations of identity-bearing image blocks (`(xref, fileName)`
returned for the block), and `image_list` entries. -/
structure BlockOut where
  items : List Item
  writes : List (Option Int × String)
  mats : List (Int × String)
  imageList : List String
deriving DecidableEq

/-- The two-pass OCR fallback of the pipeline: pass 1 `--psm 6` with
threshold 60; if it yields no lines, pass 2 `--psm 11` with threshold
55.  Returns the chosen lines and the list of `(psm, min_conf)` OCR
invocations performed. -/
def ocrFallbackRun (p : Page) : List (Int × Int × String) × List (String × Int) :=
  let l1 := ocr_extract_lines_with_positions p.ocrPsm6 60
  if l1 = [] then
    (ocr_extract_lines_with_positions p.ocrPsm11 55, [("6", 60), ("11", 55)])
  else (l1, [("6", 60)])

namespace Server

/-- The per-block body of the loop in `extract_pdf_images_and_text`
(`server.py` lines 529-573). -/
def processBlock (st : ExtractState) (b : Block) : ExtractState × BlockOut :=
  let bboxD := b.bbox.getD defaultBBox
  if b.btype = some 0 then
    (st, ⟨textLineItems bboxD b.lines, [], [], []⟩)
  else if b.btype = some 1 then
    match b.xref with
    | some k =>
      if k = 0 then
        (⟨st.counter + 1, st.xrefMap⟩,
         ⟨[⟨bboxD.y0, bboxD.x0, Kind.image, imgName (st.counter + 1)⟩],
          [(none, imgName (st.counter + 1))], [], [imgName (st.counter + 1)]⟩)
      else
        match lookupX st.xrefMap k with
        | some name =>
          (st, ⟨[⟨bboxD.y0, bboxD.x0, Kind.image, name⟩], [], [(k, name)], []⟩)
        | none =>
          (⟨st.counter + 1, (k, imgName (st.counter + 1)) :: st.xrefMap⟩,
           ⟨[⟨bboxD.y0, bboxD.x0, Kind.image, imgName (st.counter + 1)⟩],
            [(some k, imgName (st.counter + 1))], [(k, imgName (st.counter + 1))],
            [imgName (st.counter + 1)]⟩)
    | none =>
      (⟨st.counter + 1, st.xrefMap⟩,
       ⟨[⟨bboxD.y0, bboxD.x0, Kind.image, imgName (st.counter + 1)⟩],
        [(none, imgName (st.counter + 1))], [], [imgName (st.counter + 1)]⟩)
  else
    (⟨st.counter + 1, st.xrefMap⟩,
     ⟨[⟨bboxD.y0, bboxD.x0, Kind.image, imgName (st.counter + 1)⟩],
      [(none, imgName (st.counter + 1))], [], [imgName (st.counter + 1)]⟩)

/-- The whole `for block in blocks` loop. -/
def processBlocks (st : ExtractState) : List Block → ExtractState × BlockOut
  | [] => (st, ⟨[], [], [], []⟩)
  | b :: bs =>
    let r1 := processBlock st b
    let r2 := processBlocks r1.1 bs
    (r2.1, ⟨r1.2.items ++ r2.2.items, r1.2.writes ++ r2.2.writes,
            r1.2.mats ++ r2.2.mats, r1.2.imageList ++ r2.2.imageList⟩)

/-- What one page contributes to the output. -/
structure PageOut where
  txtLines : List String
  writes : List (Option Int × String)
  mats : List (Int × String)
  imageList : List String
  calls : List (String × Int)
deriving DecidableEq

/-- Processing one page (`server.py` lines 522-594): classify blocks,
fall back to OCR when no text item was found, sort by
`(y, x, text-before-image)`, render the slide header and items. -/
def processPage (st : ExtractState) (pageIndex : Nat) (p : Page) :
    ExtractState × PageOut :=
  let rb := processBlocks st p.blocks
  let ntf := rb.2.items.any (fun i => decide (i.kind = Kind.text))
  let ocrRes :=
    if ntf then (([] : List (Int × Int × String)), ([] : List (String × Int)))
    else ocrFallbackRun p
  let contentItems :=
    rb.2.items ++ ocrRes.1.map (fun l => (⟨l.1, l.2.1, Kind.text, l.2.2⟩ : Item))
  let merged := sortStable ltItem contentItems
  (rb.1,
   ⟨("=== Slide " ++ toString (pageIndex + 1) ++ " ===") :: merged.map renderItem ++ [""],
    rb.2.writes, rb.2.mats, rb.2.imageList, ocrRes.2⟩)

/-- What one document run produces. -/
structure DocOut where
  txtLines : List String
  writes : List (Option Int × String)
  mats : List (Int × String)
  imageList : List String
deriving DecidableEq

/-- The `for page_index in range(len(doc))` loop. -/
def processDoc (st : ExtractState) (pageIndex : Nat) : List Page → ExtractState × DocOut
  | [] => (st, ⟨[], [], [], []⟩)
  | p :: ps =>
    let r1 := processPage st pageIndex p
    let r2 := processDoc r1.1 (pageIndex + 1) ps
    (r2.1, ⟨r1.2.txtLines ++ r2.2.txtLines, r1.2.writes ++ r2.2.writes,
            r1.2.mats ++ r2.2.mats, r1.2.imageList ++ r2.2.imageList⟩)

/-- `extract_pdf_images_and_text`: run the document from a fresh counter
and an empty `xref_to_filename` map. -/
def extract_pdf_images_and_text (d : List Page) : ExtractState × DocOut :=
  processDoc ⟨0, []⟩ 0 d

/-- `txt_content = "\n".join(txt_lines)`. -/
def txtContent (d : List Page) : String :=
  pyJoin "\n" (extract_pdf_images_and_text d).2.txtLines

/-- Number of PNG files written for identity `k`. -/
def identCount (k : Int) (W : List (Option Int × String)) : Nat :=
  (W.filter (fun w => decide (w.1 = some k))).length

/-- The contiguous file names `IMAGE_0001.png ... IMAGE_000c.png`. -/
def seqNames (c : Nat) : List String := (List.range c).map (fun i => imgName (i + 1))

/-- The run invariant: the files written so far are exactly
`IMAGE_0001 .. IMAGE_<counter>` in order, and identity `k` has exactly
one file iff it is a key of the memoization map. -/
def StateInv (st : ExtractState) (W : List (Option Int × String)) : Prop :=
  W.map Prod.snd = seqNames st.counter ∧
  ∀ k : Int, identCount k W = if (lookupX st.xrefMap k).isSome then 1 else 0

end Server

/-! ### The `mineru_alternative.py` copy of the pipeline

`main` (lines 114-231) contains a near-identical copy of the block loop,
OCR fallback, and merge; instead of collecting `txt_lines` and
`image_list` it writes each output line (with a trailing newline)
directly to the output file. -/

/-- The file content produced by a sequence of `txt.write(...)` calls. -/
def writeAll (l : List String) : String := l.foldl (fun acc s => acc ++ s) ""

namespace Mineru

/-- What one block contributes in `mineru_alternative.py`: content items
and PNG files written (there is no `image_list` in this entry point). -/
structure MBlockOut where
  items : List Item
  writes : List (Option Int × String)
deriving DecidableEq

/-- The per-block body of the loop in `main`
(`mineru_alternative.py` lines 148-194). -/
def processBlock (st : ExtractState) (b : Block) : ExtractState × MBlockOut :=
  let bboxD := b.bbox.getD defaultBBox
  if b.btype = some 0 then
    (st, ⟨textLineItems bboxD b.lines, []⟩)
  else if b.btype = some 1 then
    match b.xref with
    | some k =>
      if k = 0 then
        (⟨st.counter + 1, st.xrefMap⟩,
         ⟨[⟨bboxD.y0, bboxD.x0, Kind.image, imgName (st.counter + 1)⟩],
          [(none, imgName (st.counter + 1))]⟩)
      else
        match lookupX st.xrefMap k with
        | some name => (st, ⟨[⟨bboxD.y0, bboxD.x0, Kind.image, name⟩], []⟩)
        | none =>
          (⟨st.counter + 1, (k, imgName (st.counter + 1)) :: st.xrefMap⟩,
           ⟨[⟨bboxD.y0, bboxD.x0, Kind.image, imgName (st.counter + 1)⟩],
            [(some k, imgName (st.counter + 1))]⟩)
    | none =>
      (⟨st.counter + 1, st.xrefMap⟩,
       ⟨[⟨bboxD.y0, bboxD.x0, Kind.image, imgName (st.counter + 1)⟩],
        [(none, imgName (st.counter + 1))]⟩)
  else
    (⟨st.counter + 1, st.xrefMap⟩,
     ⟨[⟨bboxD.y0, bboxD.x0, Kind.image, imgName (st.counter + 1)⟩],
      [(none, imgName (st.counter + 1))]⟩)

/-- The whole `for block in blocks` loop. -/
def processBlocks (st : ExtractState) : List Block → ExtractState × MBlockOut
  | [] => (st, ⟨[], []⟩)
  | b :: bs =>
    let r1 := processBlock st b
    let r2 := processBlocks r1.1 bs
    (r2.1, ⟨r1.2.items ++ r2.2.items, r1.2.writes ++ r2.2.writes⟩)

/-- What one page contributes: the strings passed to `txt.write` and the
files written. -/
structure MPageOut where
  writeStrs : List String
  writes : List (Option Int × String)
deriving DecidableEq

/-- Processing one page (`mineru_alternative.py` lines 136-220):
classify blocks, fall back to OCR when no text item was found, sort by
`(y, x, text-before-image)`, write the slide header, the rendered items,
and a blank separator line, each with a trailing newline. -/
def processPage (st : ExtractState) (pageIndex : Nat) (p : Page) :
    ExtractState × MPageOut :=
  let rb := processBlocks st p.blocks
  let ntf := rb.2.items.any (fun i => decide (i.kind = Kind.text))
  let ocrRes :=
    if ntf then (([] : List (Int × Int × String)), ([] : List (String × Int)))
    else ocrFallbackRun p
  let contentItems :=
    rb.2.items ++ ocrRes.1.map (fun l => (⟨l.1, l.2.1, Kind.text, l.2.2⟩ : Item))
  let merged := sortStable ltItem contentItems
  (rb.1,
   ⟨("=== Slide " ++ toString (pageIndex + 1) ++ " ===" ++ "\n") ::
      merged.map (fun i => renderItem i ++ "\n") ++ ["\n"],
    rb.2.writes⟩)

/-- What one document run produces. -/
structure MDocOut where
  writeStrs : List String
  writes : List (Option Int × String)
deriving DecidableEq

/-- The `for page_index in range(len(doc))` loop. -/
def processDoc (st : ExtractState) (pageIndex : Nat) : List Page → ExtractState × MDocOut
  | [] => (st, ⟨[], []⟩)
  | p :: ps =>
    let r1 := processPage st pageIndex p
    let r2 := processDoc r1.1 (pageIndex + 1) ps
    (r2.1, ⟨r1.2.writeStrs ++ r2.2.writeStrs, r1.2.writes ++ r2.2.writes⟩)

/-- The extraction part of `main`: run the document from a fresh counter
and an empty `xref_to_filename` map. -/
def runExtraction (d : List Page) : ExtractState × MDocOut :=
  processDoc ⟨0, []⟩ 0 d

/-- The content of `slides_with_placeholders.txt` after the run. -/
def fileText (d : List Page) : String :=
  writeAll (runExtraction d).2.writeStrs

end Mineru

namespace Server

/-- The native content items a page's block loop produces. -/
def pageNativeItems (st : ExtractState) (p : Page) : List Item :=
  (processBlocks st p.blocks).2.items

/-- The OCR lines and invocations of a page: none when a native text
item was found, otherwise the two-pass fallback. -/
def pageOcrRes (st : ExtractState) (p : Page) :
    List (Int × Int × String) × List (String × Int) :=
  if (pageNativeItems st p).any (fun i => decide (i.kind = Kind.text)) then ([], [])
  else ocrFallbackRun p

/-- The merged (sorted) content items of a page. -/
def pageMergedItems (st : ExtractState) (p : Page) : List Item :=
  sortStable ltItem (pageNativeItems st p ++
    (pageOcrRes st p).1.map (fun l => (⟨l.1, l.2.1, Kind.text, l.2.2⟩ : Item)))

end Server

/-! ### Example inputs for witnesses and counterexamples -/

/-- An embedded image block with xref 7. -/
def exBlockImg : Block := ⟨some 1, some ⟨0, 0, 5, 5⟩, [], some 7⟩

/-- A one-page document with two blocks referencing the same xref. -/
def exDocC1 : List Page := [⟨[exBlockImg, exBlockImg], [], []⟩]

/-- A page with one text block holding two lines at the same position. -/
def exPageC2 : Page :=
  ⟨[⟨some 0, some ⟨1, 2, 9, 9⟩,
     [⟨some ⟨1, 2, 9, 9⟩, [⟨"a"⟩]⟩, ⟨some ⟨1, 2, 9, 9⟩, [⟨"b"⟩]⟩], none⟩], [], []⟩

/-- Tokens where the grouping triple `(1,1,1)` reappears after a
different triple. -/
def exToksC3 : List OCRToken :=
  [⟨"x", some 90, 0, 10, 1, 1, 1⟩, ⟨"y", some 90, 0, 50, 1, 1, 2⟩,
   ⟨"z", some 90, 99, 10, 1, 1, 1⟩]

/-- A page with one native text line `"hi"`. -/
def exPageC7 : Page :=
  ⟨[⟨some 0, some ⟨0, 0, 9, 9⟩, [⟨some ⟨0, 0, 9, 9⟩, [⟨"hi"⟩]⟩], none⟩], [], []⟩

/-- A one-page document with no blocks and empty OCR responses. -/
def exDocC8 : List Page := [⟨[], [], []⟩]

theorem dropWhile_head_false {α : Type} (p : α → Bool) :
    ∀ (l : List α) (a : α) (t : List α), l.dropWhile p = a :: t → p a = false := by
  intro l
  induction l with
  | nil => intro a t h; simp [List.dropWhile] at h
  | cons b l ih =>
    intro a t h
    by_cases hb : p b
    · rw [List.dropWhile_cons_of_pos hb] at h
      exact ih a t h
    · rw [List.dropWhile_cons_of_neg hb] at h
      cases h
      simpa using hb

theorem stripChars_eq_nil_iff (l : List Char) :
    stripChars l = [] ↔ ∀ c ∈ l, pyWs c = true := by
  unfold stripChars
  rw [List.reverse_eq_nil_iff, List.dropWhile_eq_nil_iff]
  constructor
  · intro h c hc
    rcases List.mem_reverse.mpr hc with _
    by_cases hmem : c ∈ List.dropWhile pyWs l
    · exact h c (List.mem_reverse.mpr hmem)
    · have := List.takeWhile_append_dropWhile pyWs l
      have hc2 : c ∈ List.takeWhile pyWs l ++ List.dropWhile pyWs l := by
        rw [this]; exact hc
      rcases List.mem_append.mp hc2 with h1 | h2
      · exact List.mem_takeWhile_imp h1
      · exact absurd h2 hmem
  · intro h c hc
    have hc2 : c ∈ List.dropWhile pyWs l := List.mem_reverse.mp hc
    have hsub : List.Sublist (List.dropWhile pyWs l) l := List.dropWhile_sublist pyWs
    exact h c (hsub.subset hc2)

theorem stripChars_has_nonws {l : List Char} (h : stripChars l ≠ []) :
    ∃ c ∈ stripChars l, pyWs c = false := by
  unfold stripChars at *
  rcases hd : List.dropWhile pyWs (List.dropWhile pyWs l).reverse with _ | ⟨a, t⟩
  · rw [hd] at h; exact absurd rfl h
  · refine ⟨a, ?_, dropWhile_head_false pyWs _ a t hd⟩
    simp

/-- A nonempty result of `strip` is still nonempty after another `strip`
(it contains a non-whitespace character). -/
theorem pyStrip_pyStrip_ne {s : String} (h : pyStrip s ≠ "") :
    pyStrip (pyStrip s) ≠ "" := by
  intro hc
  apply h
  have hdata : stripChars (stripChars s.data) = [] := by
    have := congrArg String.data hc
    simpa [pyStrip] using this
  rcases Classical.em (stripChars s.data = []) with he | hne
  · exact String.ext (by simpa [pyStrip] using he)
  · rcases stripChars_has_nonws hne with ⟨c, hmem, hcf⟩
    have hall := (stripChars_eq_nil_iff (stripChars s.data)).mp hdata
    have := hall c hmem
    rw [this] at hcf
    cases hcf

theorem mem_insertSorted {α : Type} (lt : α → α → Bool) (a x : α) :
    ∀ l : List α, x ∈ insertSorted lt a l ↔ x = a ∨ x ∈ l := by
  intro l
  induction l with
  | nil => simp [insertSorted]
  | cons b bs ih =>
    by_cases h : lt a b
    · simp [insertSorted, h]
    · simp only [insertSorted, if_neg h, List.mem_cons, ih]
      tauto

theorem mem_sortStable_aux {α : Type} (lt : α → α → Bool) (x : α) :
    ∀ (l acc : List α),
      (x ∈ l.foldl (fun acc a => insertSorted lt a acc) acc ↔ x ∈ acc ∨ x ∈ l) := by
  intro l
  induction l with
  | nil => simp
  | cons a l ih =>
    intro acc
    rw [List.foldl_cons, ih, mem_insertSorted]
    simp
    tauto

theorem mem_sortStable {α : Type} (lt : α → α → Bool) (x : α) (l : List α) :
    x ∈ sortStable lt l ↔ x ∈ l := by
  unfold sortStable
  rw [mem_sortStable_aux]
  simp

theorem pairwise_insertSorted {α : Type} (lt : α → α → Bool)
    (asym : ∀ a b, lt a b = true → lt b a = false)
    (htrans : ∀ a b c, lt a b = true → lt b c = true → lt a c = true)
    (a : α) :
    ∀ l : List α, List.Pairwise (fun u v => lt v u = false) l →
      List.Pairwise (fun u v => lt v u = false) (insertSorted lt a l) := by
  intro l
  induction l with
  | nil => intro _; simp [insertSorted]
  | cons b bs ih =>
    intro h
    rcases List.pairwise_cons.mp h with ⟨hb, hbs⟩
    by_cases hab : lt a b
    · rw [insertSorted, if_pos hab]
      refine List.pairwise_cons.mpr ⟨?_, h⟩
      intro y hy
      rcases List.mem_cons.mp hy with rfl | hy2
      · exact asym a y hab
      · by_contra hya
        have hya2 : lt y a = true := by
          cases hlt : lt y a with
          | false => exact absurd hlt hya
          | true => rfl
        have := htrans y a b hya2 hab
        rw [hb y hy2] at this
        cases this
    · rw [insertSorted, if_neg hab]
      refine List.pairwise_cons.mpr ⟨?_, ih hbs⟩
      intro y hy
      rcases (mem_insertSorted lt a y bs).mp hy with rfl | hy2
      · simpa using hab
      · exact hb y hy2

theorem sortStable_sorted_aux {α : Type} (lt : α → α → Bool)
    (asym : ∀ a b, lt a b = true → lt b a = false)
    (htrans : ∀ a b c, lt a b = true → lt b c = true → lt a c = true) :
    ∀ (l acc : List α), List.Pairwise (fun u v => lt v u = false) acc →
      List.Pairwise (fun u v => lt v u = false)
        (l.foldl (fun acc a => insertSorted lt a acc) acc) := by
  intro l
  induction l with
  | nil => intro acc h; simpa using h
  | cons a l ih =>
    intro acc h
    rw [List.foldl_cons]
    exact ih _ (pairwise_insertSorted lt asym htrans a acc h)

/-- Output of the stable sort is sorted: any earlier element is not
strictly greater than any later one. -/
theorem sortStable_sorted {α : Type} (lt : α → α → Bool)
    (asym : ∀ a b, lt a b = true → lt b a = false)
    (htrans : ∀ a b c, lt a b = true → lt b c = true → lt a c = true)
    (l : List α) :
    List.Pairwise (fun u v => lt v u = false) (sortStable lt l) :=
  sortStable_sorted_aux lt asym htrans l [] (by simp)

theorem survives_false_iff (minConf : Int) (t : OCRToken) :
    survives minConf t = false ↔ (pyStrip t.text = "" ∨ confVal t < minConf) := by
  unfold survives
  simp
  tauto

theorem flushGroup_groupOf (t : OCRToken) (ts : List OCRToken) :
    flushGroup (some (groupOf t ts)) = chunkLine (t, ts) := by
  unfold flushGroup groupOf chunkLine
  simp [chunkWords]

theorem groupOf_extend (t u : OCRToken) (ts : List OCRToken) :
    groupOf t (ts ++ [u]) =
      ⟨(groupOf t ts).key, (groupOf t ts).words ++ [pyStrip u.text],
       min (groupOf t ts).top u.top, min (groupOf t ts).left u.left⟩ := by
  unfold groupOf
  simp [chunkWords]

theorem chunkRuns_cons_shape (h : OCRToken) (t : List OCRToken) :
    ∃ r rs, chunkRuns (h :: t) = (h, r) :: rs := by
  rw [chunkRuns]
  rcases chunkRuns t with _ | ⟨⟨h2, r⟩, rs⟩
  · exact ⟨[], [], rfl⟩
  · by_cases hk : tokKey h = tokKey h2
    · exact ⟨h2 :: r, rs, by simp [hk]⟩
    · exact ⟨[], (h2, r) :: rs, by simp [hk]⟩

theorem chunkRuns_append_run :
    ∀ (ts : List OCRToken) (t : OCRToken) (rest : List OCRToken),
      (∀ u ∈ ts, tokKey u = tokKey t) →
      (∀ h t2, rest = h :: t2 → tokKey h ≠ tokKey t) →
      chunkRuns (t :: ts ++ rest) = (t, ts) :: chunkRuns rest := by
  intro ts
  induction ts with
  | nil =>
    intro t rest _ hrest
    rcases rest with _ | ⟨h, t2⟩
    · rfl
    · rcases chunkRuns_cons_shape h t2 with ⟨r, rs, hshape⟩
      have hne : tokKey h ≠ tokKey t := hrest h t2 rfl
      have heq : ((t :: []) ++ (h :: t2)) = t :: h :: t2 := rfl
      rw [heq, chunkRuns, hshape]
      have hne2 : ¬ tokKey t = tokKey h := fun he => hne he.symm
      simp [hne2]
  | cons u ts2 ih =>
    intro t rest huni hrest
    have hu : tokKey u = tokKey t := huni u (by simp)
    have huni2 : ∀ v ∈ ts2, tokKey v = tokKey u := by
      intro v hv
      rw [huni v (by simp [hv]), hu]
    have hrest2 : ∀ h t2, rest = h :: t2 → tokKey h ≠ tokKey u := by
      intro h t2 he
      rw [hu]
      exact hrest h t2 he
    have hinner := ih u rest huni2 hrest2
    simp only [List.cons_append] at hinner
    have heq : ((t :: (u :: ts2)) ++ rest) = t :: (u :: (ts2 ++ rest)) := by simp
    rw [heq, chunkRuns, hinner]
    simp [hu.symm]

theorem ocrLoop_absorb (minConf : Int) :
    ∀ (toks : List OCRToken) (t : OCRToken) (ts : List OCRToken),
      (∀ u ∈ ts, tokKey u = tokKey t) →
      ocrLoop minConf toks (some (groupOf t ts)) =
        (chunkRuns ((t :: ts) ++ toks.filter (survives minConf))).flatMap chunkLine := by
  intro toks
  induction toks with
  | nil =>
    intro t ts huni
    have hrun : chunkRuns (t :: ts) = [(t, ts)] := by
      have h2 := chunkRuns_append_run ts t [] huni (by intro h t2 he; cases he)
      simpa using h2
    simp only [List.filter_nil, List.append_nil, hrun, ocrLoop, List.flatMap_cons,
      List.flatMap_nil]
    exact flushGroup_groupOf t ts
  | cons tok rest ih =>
    intro t ts huni
    by_cases hcond : (pyStrip tok.text = "" ∨ confVal tok < minConf)
    · have hs : survives minConf tok = false := (survives_false_iff minConf tok).mpr hcond
      have hfil : (tok :: rest).filter (survives minConf) = rest.filter (survives minConf) :=
        List.filter_cons_of_neg (by simp [hs])
      rw [hfil, ← ih t ts huni]
      simp only [ocrLoop, if_pos hcond]
    · have hfil : (tok :: rest).filter (survives minConf) =
          tok :: rest.filter (survives minConf) := by
        apply List.filter_cons_of_pos
        cases hsv : survives minConf tok with
        | true => rfl
        | false => exact absurd ((survives_false_iff minConf tok).mp hsv) hcond
      by_cases hk : tokKey tok = tokKey t
      · have hstep : ocrLoop minConf (tok :: rest) (some (groupOf t ts)) =
            ocrLoop minConf rest (some (groupOf t (ts ++ [tok]))) := by
          simp only [ocrLoop, if_neg hcond]
          rw [groupOf_extend]
          have hk2 : tokKey tok = (groupOf t ts).key := hk
          simp [hk2]
        rw [hstep, ih t (ts ++ [tok]) ?huni2]
        case huni2 =>
          intro u hu
          rcases List.mem_append.mp hu with h1 | h2
          · exact huni u h1
          · rcases List.mem_singleton.mp h2 with rfl
            exact hk
        rw [hfil]
        have : ((t :: ts) ++ (tok :: rest.filter (survives minConf))) =
            ((t :: (ts ++ [tok])) ++ rest.filter (survives minConf)) := by
          simp
        rw [this]
      · have hstep : ocrLoop minConf (tok :: rest) (some (groupOf t ts)) =
            flushGroup (some (groupOf t ts)) ++
              ocrLoop minConf rest (some (groupOf tok [])) := by
          simp only [ocrLoop, if_neg hcond]
          have hk2 : ¬ tokKey tok = (groupOf t ts).key := hk
          simp [hk2]
          rfl
        rw [hstep, ih tok [] (by intro u hu; cases hu), hfil]
        have hrun : chunkRuns ((t :: ts) ++ (tok :: rest.filter (survives minConf))) =
            (t, ts) :: chunkRuns (tok :: rest.filter (survives minConf)) := by
          apply chunkRuns_append_run ts t _ huni
          intro h t2 he
          cases he
          exact hk
        rw [hrun, List.flatMap_cons, flushGroup_groupOf]
        have : ((tok :: []) ++ rest.filter (survives minConf)) =
            tok :: rest.filter (survives minConf) := rfl
        rw [this]

/-- The accumulated line list equals: filter the tokens by the survival
test, split the survivors into maximal runs of consecutive equal
grouping triples, and emit each run's line. -/
theorem ocrRawLines_eq_chunks (minConf : Int) (toks : List OCRToken) :
    ocrRawLines toks minConf =
      (chunkRuns (toks.filter (survives minConf))).flatMap chunkLine := by
  unfold ocrRawLines
  induction toks with
  | nil => rfl
  | cons tok rest ih =>
    by_cases hcond : (pyStrip tok.text = "" ∨ confVal tok < minConf)
    · have hs : survives minConf tok = false := (survives_false_iff minConf tok).mpr hcond
      have hfil : (tok :: rest).filter (survives minConf) = rest.filter (survives minConf) :=
        List.filter_cons_of_neg (by simp [hs])
      rw [hfil, ← ih]
      simp only [ocrLoop, if_pos hcond]
    · have hfil : (tok :: rest).filter (survives minConf) =
          tok :: rest.filter (survives minConf) := by
        apply List.filter_cons_of_pos
        cases hsv : survives minConf tok with
        | true => rfl
        | false => exact absurd ((survives_false_iff minConf tok).mp hsv) hcond
      have hstep : ocrLoop minConf (tok :: rest) none =
          ocrLoop minConf rest (some (groupOf tok [])) := by
        simp only [ocrLoop, if_neg hcond]
        rfl
      rw [hstep, ocrLoop_absorb minConf rest tok [] (by intro u hu; cases hu), hfil]
      have : ((tok :: []) ++ rest.filter (survives minConf)) =
          tok :: rest.filter (survives minConf) := rfl
      rw [this]

theorem mem_pyJoin_foldl (sep : String) (c : Char) :
    ∀ (l : List String) (acc : String), c ∈ acc.data →
      c ∈ (l.foldl (fun a x => a ++ sep ++ x) acc).data := by
  intro l
  induction l with
  | nil => intro acc h; exact h
  | cons x l ih =>
    intro acc h
    rw [List.foldl_cons]
    apply ih
    rw [String.data_append, String.data_append]
    exact List.mem_append.mpr (Or.inl (List.mem_append.mpr (Or.inl h)))

/-- A run whose first token survives the filter yields exactly one line:
the joined word texts cannot strip to empty. -/
theorem chunkLine_length_of_survives (minConf : Int) (t : OCRToken)
    (ts : List OCRToken) (hs : survives minConf t = true) :
    (chunkLine (t, ts)).length = 1 := by
  have htext : pyStrip t.text ≠ "" := by
    intro he
    have : survives minConf t = false := (survives_false_iff minConf t).mpr (Or.inl he)
    rw [hs] at this
    cases this
  have hdata : stripChars t.text.data ≠ [] := by
    intro hd
    exact htext (String.ext (by simpa [pyStrip] using hd))
  rcases stripChars_has_nonws hdata with ⟨c, hc, hcw⟩
  have hcj : c ∈ (pyJoin " " (chunkWords (t, ts))).data := by
    have hcw2 : c ∈ (pyStrip t.text).data := by simpa [pyStrip] using hc
    unfold chunkWords pyJoin
    exact mem_pyJoin_foldl " " c _ _ hcw2
  have hne : pyStrip (pyJoin " " (chunkWords (t, ts))) ≠ "" := by
    intro he
    have hnil : stripChars (pyJoin " " (chunkWords (t, ts))).data = [] := by
      have := congrArg String.data he
      simpa [pyStrip] using this
    have hall := (stripChars_eq_nil_iff _).mp hnil
    have := hall c hcj
    rw [this] at hcw
    cases hcw
  unfold chunkLine
  simp [hne]

/-- Every line the loop emits has nonempty text that is stable under a
further strip (it was produced by `" ".join(words).strip()` and guarded
nonempty). -/
theorem ocrRawLines_text_nonempty (toks : List OCRToken) (minConf : Int)
    (r : RawLine) (hr : r ∈ ocrRawLines toks minConf) :
    r.text ≠ "" ∧ pyStrip r.text = pyStrip r.text ∧ pyStrip r.text ≠ "" := by
  rw [ocrRawLines_eq_chunks] at hr
  rcases List.mem_flatMap.mp hr with ⟨chunk, _, hmem⟩
  unfold chunkLine at hmem
  by_cases h : pyStrip (pyJoin " " (chunkWords chunk)) = ""
  · simp [h] at hmem
  · simp only [if_neg h, List.mem_singleton] at hmem
    subst hmem
    exact ⟨h, rfl, pyStrip_pyStrip_ne h⟩

/-- Tokens whose confidence string fails to parse never influence the
loop: filtering them away first yields the same lines. -/
theorem ocrRawLines_drop_unparsed (minConf : Int) (hc : (-1 : Int) < minConf)
    (toks : List OCRToken) :
    ocrRawLines (toks.filter (fun t => t.conf.isSome)) minConf =
      ocrRawLines toks minConf := by
  rw [ocrRawLines_eq_chunks, ocrRawLines_eq_chunks]
  have hfil : (toks.filter (fun t => t.conf.isSome)).filter (survives minConf) =
      toks.filter (survives minConf) := by
    rw [List.filter_filter]
    apply List.filter_congr
    intro t _
    cases ht : t.conf with
    | none =>
      have hsv : survives minConf t = false := by
        apply (survives_false_iff minConf t).mpr
        right
        unfold confVal
        rw [ht]
        exact hc
      simp [hsv, ht]
    | some v => simp [ht]
  rw [hfil]

theorem ltLine_asym (a b : Int × Int × String) :
    ltLine a b = true → ltLine b a = false := by
  unfold ltLine
  simp only [decide_eq_true_eq, decide_eq_false_iff_not]
  omega

theorem ltLine_trans (a b c : Int × Int × String) :
    ltLine a b = true → ltLine b c = true → ltLine a c = true := by
  unfold ltLine
  simp only [decide_eq_true_eq]
  omega

namespace Server

theorem lookupX_cons (k0 : Int) (v : String) (m : List (Int × String)) (x : Int) :
    lookupX ((k0, v) :: m) x = if x = k0 then some v else lookupX m x := rfl

theorem seqNames_succ (c : Nat) : seqNames (c + 1) = seqNames c ++ [imgName (c + 1)] := by
  unfold seqNames
  rw [List.range_succ]
  simp

theorem identCount_append (k : Int) (W V : List (Option Int × String)) :
    identCount k (W ++ V) = identCount k W + identCount k V := by
  unfold identCount
  rw [List.filter_append, List.length_append]

/-- Every branch of the block loop is one of: a text block (no state
change, no file), a crop-derived image (fresh number, anonymous write),
a memoization hit (no state change, no file), or a memoization miss
(fresh number, write recorded under the xref). -/
theorem processBlock_cases (st : ExtractState) (b : Block) :
    (∃ items, processBlock st b = (st, ⟨items, [], [], []⟩)) ∨
    (∃ y x, processBlock st b = (⟨st.counter + 1, st.xrefMap⟩,
       ⟨[⟨y, x, Kind.image, imgName (st.counter + 1)⟩],
        [(none, imgName (st.counter + 1))], [], [imgName (st.counter + 1)]⟩)) ∨
    (∃ k fn y x, lookupX st.xrefMap k = some fn ∧
       processBlock st b = (st, ⟨[⟨y, x, Kind.image, fn⟩], [], [(k, fn)], []⟩)) ∨
    (∃ k y x, lookupX st.xrefMap k = none ∧
       processBlock st b = (⟨st.counter + 1, (k, imgName (st.counter + 1)) :: st.xrefMap⟩,
         ⟨[⟨y, x, Kind.image, imgName (st.counter + 1)⟩],
          [(some k, imgName (st.counter + 1))], [(k, imgName (st.counter + 1))],
          [imgName (st.counter + 1)]⟩)) := by
  by_cases h0 : b.btype = some 0
  · exact Or.inl ⟨textLineItems (b.bbox.getD defaultBBox) b.lines,
      by simp [processBlock, h0]⟩
  · by_cases h1 : b.btype = some 1
    · rcases hx : b.xref with _ | k
      · exact Or.inr (Or.inl ⟨(b.bbox.getD defaultBBox).y0, (b.bbox.getD defaultBBox).x0,
          by simp [processBlock, h0, h1, hx]⟩)
      · by_cases hk : k = 0
        · exact Or.inr (Or.inl ⟨(b.bbox.getD defaultBBox).y0, (b.bbox.getD defaultBBox).x0,
            by simp [processBlock, h0, h1, hx, hk]⟩)
        · rcases hl : lookupX st.xrefMap k with _ | fn
          · exact Or.inr (Or.inr (Or.inr ⟨k, (b.bbox.getD defaultBBox).y0,
              (b.bbox.getD defaultBBox).x0, hl,
              by simp [processBlock, h0, h1, hx, hk, hl]⟩))
          · exact Or.inr (Or.inr (Or.inl ⟨k, fn, (b.bbox.getD defaultBBox).y0,
              (b.bbox.getD defaultBBox).x0, hl,
              by simp [processBlock, h0, h1, hx, hk, hl]⟩))
    · exact Or.inr (Or.inl ⟨(b.bbox.getD defaultBBox).y0, (b.bbox.getD defaultBBox).x0,
        by simp [processBlock, h0, h1]⟩)

theorem processBlock_inv {st : ExtractState} {b : Block}
    {W : List (Option Int × String)} (h : StateInv st W) :
    StateInv (processBlock st b).1 (W ++ (processBlock st b).2.writes) := by
  rcases processBlock_cases st b with ⟨items, he⟩ | ⟨y, x, he⟩ |
    ⟨k, fn, y, x, hl, he⟩ | ⟨k, y, x, hl, he⟩
  · rw [he]
    simpa using h
  · rw [he]
    refine ⟨?_, ?_⟩
    · rw [List.map_append, h.1, seqNames_succ]
      rfl
    · intro k2
      rw [identCount_append, h.2 k2]
      have hz : identCount k2 [((none : Option Int), imgName (st.counter + 1))] = 0 := by
        unfold identCount
        simp
      rw [hz]
      simp
  · rw [he]
    simpa using h
  · rw [he]
    refine ⟨?_, ?_⟩
    · rw [List.map_append, h.1, seqNames_succ]
      rfl
    · intro k2
      rw [identCount_append, h.2 k2]
      by_cases hk2 : k2 = k
      · subst hk2
        rw [hl]
        have h1 : identCount k2 [(some k2, imgName (st.counter + 1))] = 1 := by
          unfold identCount
          simp
        have h2 : lookupX ((k2, imgName (st.counter + 1)) :: st.xrefMap) k2 =
            some (imgName (st.counter + 1)) := by
          rw [lookupX_cons, if_pos rfl]
        rw [h1, h2]
        simp
      · have h1 : identCount k2 [(some k, imgName (st.counter + 1))] = 0 := by
          unfold identCount
          simp
          exact fun hcon => hk2 hcon.symm
        have h2 : lookupX ((k, imgName (st.counter + 1)) :: st.xrefMap) k2 =
            lookupX st.xrefMap k2 := by
          rw [lookupX_cons, if_neg hk2]
        rw [h1, h2]
        simp

theorem processBlock_persist {st : ExtractState} {b : Block} {k : Int} {fn : String}
    (hfn : lookupX st.xrefMap k = some fn) :
    lookupX (processBlock st b).1.xrefMap k = some fn := by
  rcases processBlock_cases st b with ⟨items, he⟩ | ⟨y, x, he⟩ |
    ⟨k2, fn2, y, x, hl, he⟩ | ⟨k2, y, x, hl, he⟩
  · rw [he]; exact hfn
  · rw [he]; exact hfn
  · rw [he]; exact hfn
  · rw [he]
    have hne : ¬ k = k2 := by
      intro hcon
      rw [hcon, hl] at hfn
      cases hfn
    rw [lookupX_cons, if_neg hne]
    exact hfn

theorem processBlock_mats {st : ExtractState} {b : Block} :
    ∀ e ∈ (processBlock st b).2.mats,
      lookupX (processBlock st b).1.xrefMap e.1 = some e.2 := by
  rcases processBlock_cases st b with ⟨items, he⟩ | ⟨y, x, he⟩ |
    ⟨k, fn, y, x, hl, he⟩ | ⟨k, y, x, hl, he⟩
  · rw [he]; intro e he2; cases he2
  · rw [he]; intro e he2; cases he2
  · rw [he]
    intro e he2
    rcases List.mem_singleton.mp he2 with rfl
    exact hl
  · rw [he]
    intro e he2
    rcases List.mem_singleton.mp he2 with rfl
    unfold lookupX
    simp

theorem processBlocks_cons_fst (st : ExtractState) (b : Block) (bs : List Block) :
    (processBlocks st (b :: bs)).1 = (processBlocks (processBlock st b).1 bs).1 := rfl

theorem processBlocks_cons_writes (st : ExtractState) (b : Block) (bs : List Block) :
    (processBlocks st (b :: bs)).2.writes =
      (processBlock st b).2.writes ++ (processBlocks (processBlock st b).1 bs).2.writes := rfl

theorem processBlocks_cons_mats (st : ExtractState) (b : Block) (bs : List Block) :
    (processBlocks st (b :: bs)).2.mats =
      (processBlock st b).2.mats ++ (processBlocks (processBlock st b).1 bs).2.mats := rfl

theorem processBlocks_cons_items (st : ExtractState) (b : Block) (bs : List Block) :
    (processBlocks st (b :: bs)).2.items =
      (processBlock st b).2.items ++ (processBlocks (processBlock st b).1 bs).2.items := rfl

theorem processBlocks_inv :
    ∀ (bs : List Block) (st : ExtractState) (W : List (Option Int × String)),
      StateInv st W → StateInv (processBlocks st bs).1 (W ++ (processBlocks st bs).2.writes) := by
  intro bs
  induction bs with
  | nil =>
    intro st W h
    simpa [processBlocks] using h
  | cons b bs ih =>
    intro st W h
    rw [processBlocks_cons_fst, processBlocks_cons_writes, ← List.append_assoc]
    exact ih (processBlock st b).1 (W ++ (processBlock st b).2.writes) (processBlock_inv h)

theorem processBlocks_persist :
    ∀ (bs : List Block) (st : ExtractState) (k : Int) (fn : String),
      lookupX st.xrefMap k = some fn →
      lookupX (processBlocks st bs).1.xrefMap k = some fn := by
  intro bs
  induction bs with
  | nil => intro st k fn h; exact h
  | cons b bs ih =>
    intro st k fn h
    rw [processBlocks_cons_fst]
    exact ih (processBlock st b).1 k fn (processBlock_persist h)

theorem processBlocks_mats :
    ∀ (bs : List Block) (st : ExtractState),
      ∀ e ∈ (processBlocks st bs).2.mats,
        lookupX (processBlocks st bs).1.xrefMap e.1 = some e.2 := by
  intro bs
  induction bs with
  | nil => intro st e he; cases he
  | cons b bs ih =>
    intro st e he
    rw [processBlocks_cons_mats] at he
    rw [processBlocks_cons_fst]
    rcases List.mem_append.mp he with h1 | h2
    · exact processBlocks_persist bs (processBlock st b).1 e.1 e.2 (processBlock_mats e h1)
    · exact ih (processBlock st b).1 e h2

theorem processPage_fst (st : ExtractState) (i : Nat) (p : Page) :
    (processPage st i p).1 = (processBlocks st p.blocks).1 := rfl

theorem processPage_writes (st : ExtractState) (i : Nat) (p : Page) :
    (processPage st i p).2.writes = (processBlocks st p.blocks).2.writes := rfl

theorem processPage_mats (st : ExtractState) (i : Nat) (p : Page) :
    (processPage st i p).2.mats = (processBlocks st p.blocks).2.mats := rfl

theorem processDoc_cons_fst (st : ExtractState) (i : Nat) (p : Page) (ps : List Page) :
    (processDoc st i (p :: ps)).1 = (processDoc (processPage st i p).1 (i + 1) ps).1 := rfl

theorem processDoc_cons_writes (st : ExtractState) (i : Nat) (p : Page) (ps : List Page) :
    (processDoc st i (p :: ps)).2.writes =
      (processPage st i p).2.writes ++ (processDoc (processPage st i p).1 (i + 1) ps).2.writes := rfl

theorem processDoc_cons_mats (st : ExtractState) (i : Nat) (p : Page) (ps : List Page) :
    (processDoc st i (p :: ps)).2.mats =
      (processPage st i p).2.mats ++ (processDoc (processPage st i p).1 (i + 1) ps).2.mats := rfl

theorem processDoc_cons_txtLines (st : ExtractState) (i : Nat) (p : Page) (ps : List Page) :
    (processDoc st i (p :: ps)).2.txtLines =
      (processPage st i p).2.txtLines ++
        (processDoc (processPage st i p).1 (i + 1) ps).2.txtLines := rfl

theorem processDoc_inv :
    ∀ (ps : List Page) (st : ExtractState) (i : Nat) (W : List (Option Int × String)),
      StateInv st W → StateInv (processDoc st i ps).1 (W ++ (processDoc st i ps).2.writes) := by
  intro ps
  induction ps with
  | nil =>
    intro st i W h
    simpa [processDoc] using h
  | cons p ps ih =>
    intro st i W h
    rw [processDoc_cons_fst, processDoc_cons_writes, ← List.append_assoc]
    have hp : StateInv (processPage st i p).1 (W ++ (processPage st i p).2.writes) := by
      rw [processPage_fst, processPage_writes]
      exact processBlocks_inv p.blocks st W h
    exact ih (processPage st i p).1 (i + 1) (W ++ (processPage st i p).2.writes) hp

theorem processDoc_persist :
    ∀ (ps : List Page) (st : ExtractState) (i : Nat) (k : Int) (fn : String),
      lookupX st.xrefMap k = some fn →
      lookupX (processDoc st i ps).1.xrefMap k = some fn := by
  intro ps
  induction ps with
  | nil => intro st i k fn h; exact h
  | cons p ps ih =>
    intro st i k fn h
    rw [processDoc_cons_fst]
    apply ih
    rw [processPage_fst]
    exact processBlocks_persist p.blocks st k fn h

theorem processDoc_mats :
    ∀ (ps : List Page) (st : ExtractState) (i : Nat),
      ∀ e ∈ (processDoc st i ps).2.mats,
        lookupX (processDoc st i ps).1.xrefMap e.1 = some e.2 := by
  intro ps
  induction ps with
  | nil => intro st i e he; cases he
  | cons p ps ih =>
    intro st i e he
    rw [processDoc_cons_mats] at he
    rw [processDoc_cons_fst]
    rcases List.mem_append.mp he with h1 | h2
    · apply processDoc_persist
      rw [processPage_fst]
      rw [processPage_mats] at h1
      exact processBlocks_mats p.blocks st e h1
    · exact ih (processPage st i p).1 (i + 1) e h2

theorem extract_inv (d : List Page) :
    StateInv (extract_pdf_images_and_text d).1 (extract_pdf_images_and_text d).2.writes := by
  have h0 : StateInv ⟨0, []⟩ [] := ⟨rfl, fun k => rfl⟩
  have h := processDoc_inv d ⟨0, []⟩ 0 [] h0
  simpa [extract_pdf_images_and_text] using h

theorem extract_mats (d : List Page) :
    ∀ e ∈ (extract_pdf_images_and_text d).2.mats,
      lookupX (extract_pdf_images_and_text d).1.xrefMap e.1 = some e.2 := by
  intro e he
  exact processDoc_mats d ⟨0, []⟩ 0 e he

end Server

theorem writeAll_aux : ∀ (xs : List String) (acc : String),
    xs.foldl (fun a s => a ++ s) acc = acc ++ writeAll xs := by
  intro xs
  induction xs with
  | nil => intro acc; rw [writeAll]; simp [String.append_empty]
  | cons x xs ih =>
    intro acc
    rw [List.foldl_cons, ih (acc ++ x)]
    have h2 : writeAll (x :: xs) = x ++ writeAll xs := by
      rw [writeAll, List.foldl_cons, ih ("" ++ x), String.empty_append]
    rw [h2, String.append_assoc]

theorem writeAll_cons (x : String) (xs : List String) :
    writeAll (x :: xs) = x ++ writeAll xs := by
  rw [writeAll, List.foldl_cons, writeAll_aux, String.empty_append]

theorem pyJoin_foldl_aux (sep : String) :
    ∀ (t : List String) (acc1 acc2 : String),
      t.foldl (fun a x => a ++ sep ++ x) (acc1 ++ acc2) =
        acc1 ++ t.foldl (fun a x => a ++ sep ++ x) acc2 := by
  intro t
  induction t with
  | nil => intro acc1 acc2; rfl
  | cons x t ih =>
    intro acc1 acc2
    rw [List.foldl_cons, List.foldl_cons]
    have h : acc1 ++ acc2 ++ sep ++ x = acc1 ++ (acc2 ++ sep ++ x) := by
      simp only [String.append_assoc]
    rw [h, ih acc1 (acc2 ++ sep ++ x)]

theorem pyJoin_cons (sep a b : String) (t : List String) :
    pyJoin sep (a :: b :: t) = a ++ sep ++ pyJoin sep (b :: t) := by
  show (b :: t).foldl (fun x y => x ++ sep ++ y) a = a ++ sep ++ pyJoin sep (b :: t)
  rw [List.foldl_cons]
  exact pyJoin_foldl_aux sep t (a ++ sep) b

/-- Writing each line followed by `"\n"` produces the `"\n"`-join of the
lines plus one trailing newline. -/
theorem writeAll_map_newline :
    ∀ (l : List String), l ≠ [] →
      writeAll (l.map (fun s => s ++ "\n")) = pyJoin "\n" l ++ "\n" := by
  intro l
  induction l with
  | nil => intro h; exact absurd rfl h
  | cons a t ih =>
    intro _
    rcases t with _ | ⟨b, t2⟩
    · rw [List.map_cons, List.map_nil, writeAll_cons]
      rw [show writeAll ([] : List String) = "" from rfl, String.append_empty]
      rfl
    · rw [List.map_cons, writeAll_cons, ih (by simp), pyJoin_cons]
      rw [String.append_assoc, String.append_assoc, String.append_assoc]

namespace Server

theorem processPage_txtLines (st : ExtractState) (i : Nat) (p : Page) :
    (processPage st i p).2.txtLines =
      ("=== Slide " ++ toString (i + 1) ++ " ===") ::
        (pageMergedItems st p).map renderItem ++ [""] := rfl

theorem processPage_calls (st : ExtractState) (i : Nat) (p : Page) :
    (processPage st i p).2.calls = (pageOcrRes st p).2 := rfl

end Server

/-! ### Equivalence of the two copies of the pipeline -/

theorem block_eq_fst (st : ExtractState) (b : Block) :
    (Mineru.processBlock st b).1 = (Server.processBlock st b).1 := by
  by_cases h0 : b.btype = some 0
  · simp [Mineru.processBlock, Server.processBlock, h0]
  · by_cases h1 : b.btype = some 1
    · rcases hx : b.xref with _ | k
      · simp [Mineru.processBlock, Server.processBlock, h0, h1, hx]
      · by_cases hk : k = 0
        · simp [Mineru.processBlock, Server.processBlock, h0, h1, hx, hk]
        · rcases hl : lookupX st.xrefMap k with _ | fn
          · simp [Mineru.processBlock, Server.processBlock, h0, h1, hx, hk, hl]
          · simp [Mineru.processBlock, Server.processBlock, h0, h1, hx, hk, hl]
    · simp [Mineru.processBlock, Server.processBlock, h0, h1]

theorem block_eq_items (st : ExtractState) (b : Block) :
    (Mineru.processBlock st b).2.items = (Server.processBlock st b).2.items := by
  by_cases h0 : b.btype = some 0
  · simp [Mineru.processBlock, Server.processBlock, h0]
  · by_cases h1 : b.btype = some 1
    · rcases hx : b.xref with _ | k
      · simp [Mineru.processBlock, Server.processBlock, h0, h1, hx]
      · by_cases hk : k = 0
        · simp [Mineru.processBlock, Server.processBlock, h0, h1, hx, hk]
        · rcases hl : lookupX st.xrefMap k with _ | fn
          · simp [Mineru.processBlock, Server.processBlock, h0, h1, hx, hk, hl]
          · simp [Mineru.processBlock, Server.processBlock, h0, h1, hx, hk, hl]
    · simp [Mineru.processBlock, Server.processBlock, h0, h1]

theorem block_eq_writes (st : ExtractState) (b : Block) :
    (Mineru.processBlock st b).2.writes = (Server.processBlock st b).2.writes := by
  by_cases h0 : b.btype = some 0
  · simp [Mineru.processBlock, Server.processBlock, h0]
  · by_cases h1 : b.btype = some 1
    · rcases hx : b.xref with _ | k
      · simp [Mineru.processBlock, Server.processBlock, h0, h1, hx]
      · by_cases hk : k = 0
        · simp [Mineru.processBlock, Server.processBlock, h0, h1, hx, hk]
        · rcases hl : lookupX st.xrefMap k with _ | fn
          · simp [Mineru.processBlock, Server.processBlock, h0, h1, hx, hk, hl]
          · simp [Mineru.processBlock, Server.processBlock, h0, h1, hx, hk, hl]
    · simp [Mineru.processBlock, Server.processBlock, h0, h1]

theorem blocks_eq_fst :
    ∀ (bs : List Block) (st : ExtractState),
      (Mineru.processBlocks st bs).1 = (Server.processBlocks st bs).1 := by
  intro bs
  induction bs with
  | nil => intro st; rfl
  | cons b bs ih =>
    intro st
    show (Mineru.processBlocks (Mineru.processBlock st b).1 bs).1 =
      (Server.processBlocks (Server.processBlock st b).1 bs).1
    rw [block_eq_fst, ih]

theorem blocks_eq_items :
    ∀ (bs : List Block) (st : ExtractState),
      (Mineru.processBlocks st bs).2.items = (Server.processBlocks st bs).2.items := by
  intro bs
  induction bs with
  | nil => intro st; rfl
  | cons b bs ih =>
    intro st
    show (Mineru.processBlock st b).2.items ++
        (Mineru.processBlocks (Mineru.processBlock st b).1 bs).2.items =
      (Server.processBlock st b).2.items ++
        (Server.processBlocks (Server.processBlock st b).1 bs).2.items
    rw [block_eq_items, block_eq_fst, ih]

theorem blocks_eq_writes :
    ∀ (bs : List Block) (st : ExtractState),
      (Mineru.processBlocks st bs).2.writes = (Server.processBlocks st bs).2.writes := by
  intro bs
  induction bs with
  | nil => intro st; rfl
  | cons b bs ih =>
    intro st
    show (Mineru.processBlock st b).2.writes ++
        (Mineru.processBlocks (Mineru.processBlock st b).1 bs).2.writes =
      (Server.processBlock st b).2.writes ++
        (Server.processBlocks (Server.processBlock st b).1 bs).2.writes
    rw [block_eq_writes, block_eq_fst, ih]

theorem page_eq_fst (st : ExtractState) (i : Nat) (p : Page) :
    (Mineru.processPage st i p).1 = (Server.processPage st i p).1 := by
  show (Mineru.processBlocks st p.blocks).1 = (Server.processBlocks st p.blocks).1
  exact blocks_eq_fst p.blocks st

theorem page_eq_writes (st : ExtractState) (i : Nat) (p : Page) :
    (Mineru.processPage st i p).2.writes = (Server.processPage st i p).2.writes := by
  show (Mineru.processBlocks st p.blocks).2.writes =
    (Server.processBlocks st p.blocks).2.writes
  exact blocks_eq_writes p.blocks st

theorem page_eq_lines (st : ExtractState) (i : Nat) (p : Page) :
    (Mineru.processPage st i p).2.writeStrs =
      (Server.processPage st i p).2.txtLines.map (fun s => s ++ "\n") := by
  have hitems := blocks_eq_items p.blocks st
  simp only [Mineru.processPage, Server.processPage, hitems, List.map_cons,
    List.map_append, List.map_map, List.map_nil]
  rfl

theorem doc_eq_fst :
    ∀ (ps : List Page) (st : ExtractState) (i : Nat),
      (Mineru.processDoc st i ps).1 = (Server.processDoc st i ps).1 := by
  intro ps
  induction ps with
  | nil => intro st i; rfl
  | cons p ps ih =>
    intro st i
    show (Mineru.processDoc (Mineru.processPage st i p).1 (i + 1) ps).1 =
      (Server.processDoc (Server.processPage st i p).1 (i + 1) ps).1
    rw [page_eq_fst, ih]

theorem doc_eq_lines :
    ∀ (ps : List Page) (st : ExtractState) (i : Nat),
      (Mineru.processDoc st i ps).2.writeStrs =
        (Server.processDoc st i ps).2.txtLines.map (fun s => s ++ "\n") := by
  intro ps
  induction ps with
  | nil => intro st i; rfl
  | cons p ps ih =>
    intro st i
    show (Mineru.processPage st i p).2.writeStrs ++
        (Mineru.processDoc (Mineru.processPage st i p).1 (i + 1) ps).2.writeStrs =
      ((Server.processPage st i p).2.txtLines ++
        (Server.processDoc (Server.processPage st i p).1 (i + 1) ps).2.txtLines).map
          (fun s => s ++ "\n")
    rw [List.map_append, page_eq_lines, page_eq_fst, ih]

theorem doc_eq_writes :
    ∀ (ps : List Page) (st : ExtractState) (i : Nat),
      (Mineru.processDoc st i ps).2.writes = (Server.processDoc st i ps).2.writes := by
  intro ps
  induction ps with
  | nil => intro st i; rfl
  | cons p ps ih =>
    intro st i
    show (Mineru.processPage st i p).2.writes ++
        (Mineru.processDoc (Mineru.processPage st i p).1 (i + 1) ps).2.writes =
      (Server.processPage st i p).2.writes ++
        (Server.processDoc (Server.processPage st i p).1 (i + 1) ps).2.writes
    rw [page_eq_writes, page_eq_fst, ih]

theorem server_txtLines_ne_nil (st : ExtractState) (i : Nat) (p : Page) (ps : List Page) :
    (Server.processDoc st i (p :: ps)).2.txtLines ≠ [] := by
  rw [Server.processDoc_cons_txtLines, Server.processPage_txtLines]
  simp

theorem ltItem_asym (a b : Item) : ltItem a b = true → ltItem b a = false := by
  unfold ltItem
  simp only [decide_eq_true_eq, decide_eq_false_iff_not]
  omega

theorem ltItem_trans (a b c : Item) :
    ltItem a b = true → ltItem b c = true → ltItem a c = true := by
  unfold ltItem
  simp only [decide_eq_true_eq]
  omega

theorem ocrFallback_calls_ne_nil (p : Page) : (ocrFallbackRun p).2 ≠ [] := by
  unfold ocrFallbackRun
  by_cases h : ocr_extract_lines_with_positions p.ocrPsm6 60 = []
  · simp [h]
  · simp [h]

/-- Every line of `ocr_extract_lines_with_positions` carries nonempty,
strip-stable text. -/
theorem ocr_extract_text_nonempty (toks : List OCRToken) (minConf : Int)
    (l : Int × Int × String) (hl : l ∈ ocr_extract_lines_with_positions toks minConf) :
    l.2.2 ≠ "" ∧ pyStrip l.2.2 ≠ "" := by
  unfold ocr_extract_lines_with_positions at hl
  rw [mem_sortStable] at hl
  rcases List.mem_map.mp hl with ⟨r, hr, he⟩
  have h := ocrRawLines_text_nonempty toks minConf r hr
  rw [← he]
  exact ⟨h.1, h.2.2⟩

theorem fallback_lines_text_nonempty (p : Page) (l : Int × Int × String)
    (hl : l ∈ (ocrFallbackRun p).1) : l.2.2 ≠ "" ∧ pyStrip l.2.2 ≠ "" := by
  unfold ocrFallbackRun at hl
  by_cases h : ocr_extract_lines_with_positions p.ocrPsm6 60 = []
  · rw [if_pos h] at hl
    exact ocr_extract_text_nonempty p.ocrPsm11 55 l hl
  · rw [if_neg h] at hl
    exact ocr_extract_text_nonempty p.ocrPsm6 60 l hl

/-- Every text item a block contributes has nonempty, strip-stable text
(the guard `if line_text:` after `strip()` in the source). -/
theorem processBlock_text_payload (st : ExtractState) (b : Block) (it : Item)
    (hmem : it ∈ (Server.processBlock st b).2.items) (hk : it.kind = Kind.text) :
    it.payload ≠ "" ∧ pyStrip it.payload ≠ "" := by
  by_cases h0 : b.btype = some 0
  · have hitems : (Server.processBlock st b).2.items =
        textLineItems (b.bbox.getD defaultBBox) b.lines := by
      simp [Server.processBlock, h0]
    rw [hitems] at hmem
    unfold textLineItems at hmem
    rcases List.mem_flatMap.mp hmem with ⟨line, _, hline⟩
    by_cases he : pyStrip (pyJoin "" (line.spans.map (fun s => s.text))) = ""
    · simp [he] at hline
    · simp only [if_neg he, List.mem_singleton] at hline
      subst hline
      exact ⟨he, pyStrip_pyStrip_ne he⟩
  · exfalso
    have himg : ∀ it2 ∈ (Server.processBlock st b).2.items, it2.kind = Kind.image := by
      by_cases h1 : b.btype = some 1
      · rcases hx : b.xref with _ | k
        · intro it2 h2
          simp [Server.processBlock, h0, h1, hx] at h2
          simp [h2]
        · by_cases hk2 : k = 0
          · intro it2 h2
            simp [Server.processBlock, h0, h1, hx, hk2] at h2
            simp [h2]
          · rcases hl : lookupX st.xrefMap k with _ | fn
            · intro it2 h2
              simp [Server.processBlock, h0, h1, hx, hk2, hl] at h2
              simp [h2]
            · intro it2 h2
              simp [Server.processBlock, h0, h1, hx, hk2, hl] at h2
              simp [h2]
      · intro it2 h2
        simp [Server.processBlock, h0, h1] at h2
        simp [h2]
    have hcon := himg it hmem
    rw [hk] at hcon
    cases hcon

theorem processBlocks_text_payload :
    ∀ (bs : List Block) (st : ExtractState) (it : Item),
      it ∈ (Server.processBlocks st bs).2.items → it.kind = Kind.text →
      it.payload ≠ "" ∧ pyStrip it.payload ≠ "" := by
  intro bs
  induction bs with
  | nil => intro st it hmem _; cases hmem
  | cons b bs ih =>
    intro st it hmem hk
    rw [Server.processBlocks_cons_items] at hmem
    rcases List.mem_append.mp hmem with h1 | h2
    · exact processBlock_text_payload st b it h1 hk
    · exact ih (Server.processBlock st b).1 it h2 hk

theorem ocrFallback_calls_length (p : Page) : (ocrFallbackRun p).2.length ≤ 2 := by
  unfold ocrFallbackRun
  by_cases h : ocr_extract_lines_with_positions p.ocrPsm6 60 = []
  · simp [h]
  · simp [h]

/-! ### The claims -/

/-- Claim C1: within one document, any two image blocks sharing the same
truthy xref are materialized to the same file name, exactly one PNG is
written for that identity across the whole document, and a memoization
hit changes no state and performs no write, returning the mapped name. -/
theorem c1_image_memoization (d : List Page) (k : Int) (n1 n2 : String)
    (h1 : (k, n1) ∈ (Server.extract_pdf_images_and_text d).2.mats)
    (h2 : (k, n2) ∈ (Server.extract_pdf_images_and_text d).2.mats) :
    n1 = n2 ∧
    Server.identCount k (Server.extract_pdf_images_and_text d).2.writes = 1 ∧
    (∀ (st : ExtractState) (b : Block) (fn : String),
      b.btype = some 1 → b.xref = some k → k ≠ 0 → lookupX st.xrefMap k = some fn →
      Server.processBlock st b =
        (st, ⟨[⟨(b.bbox.getD defaultBBox).y0, (b.bbox.getD defaultBBox).x0,
          Kind.image, fn⟩], [], [(k, fn)], []⟩)) := by
  have hm1 := Server.extract_mats d (k, n1) h1
  have hm2 := Server.extract_mats d (k, n2) h2
  refine ⟨?_, ?_, ?_⟩
  · rw [hm1] at hm2
    exact (Option.some.injEq n2 n1).mp hm2.symm |>.symm
  · have hinv := (Server.extract_inv d).2 k
    rw [hm1] at hinv
    simpa using hinv
  · intro st b fn hb hx hk0 hl
    simp [Server.processBlock, hb, hx, hk0, hl]

/-- Claim C1 witness: a document with two blocks sharing xref 7. -/
theorem c1_witness :
    ("IMAGE_0001.png" : String) = "IMAGE_0001.png" ∧
    Server.identCount 7 (Server.extract_pdf_images_and_text exDocC1).2.writes = 1 ∧
    (∀ (st : ExtractState) (b : Block) (fn : String),
      b.btype = some 1 → b.xref = some 7 → (7 : Int) ≠ 0 → lookupX st.xrefMap 7 = some fn →
      Server.processBlock st b =
        (st, ⟨[⟨(b.bbox.getD defaultBBox).y0, (b.bbox.getD defaultBBox).x0,
          Kind.image, fn⟩], [], [(7, fn)], []⟩)) :=
  c1_image_memoization exDocC1 7 "IMAGE_0001.png" "IMAGE_0001.png" (by decide) (by decide)

/-- Claim C2 (amended): in a page's merged output, for items i before j,
either `top(i) < top(j)`, or tops are equal and `left(i) < left(j)`, or
tops and lefts are equal and the kind rank of i is at most that of j
(text = 0 before image = 1; two items of the same kind may share an
exact position, in which case they keep their input order). -/
theorem c2_merge_ordering (st : ExtractState) (p : Page) :
    List.Pairwise (fun i j =>
      i.y < j.y ∨ (i.y = j.y ∧ (i.x < j.x ∨ (i.x = j.x ∧ kindRank i.kind ≤ kindRank j.kind))))
      (Server.pageMergedItems st p) := by
  have h := sortStable_sorted ltItem ltItem_asym ltItem_trans
    (Server.pageNativeItems st p ++
      (Server.pageOcrRes st p).1.map (fun l => (⟨l.1, l.2.1, Kind.text, l.2.2⟩ : Item)))
  apply List.Pairwise.imp ?_ h
  intro a b hab
  unfold ltItem at hab
  simp only [decide_eq_false_iff_not] at hab
  omega

/-- Claim C2 counterexample: two text lines sharing an exact position
appear adjacently in the merged output; neither a strict position
inequality nor the text-before-image tie-break relates them, so the
claimed disjunction fails for that pair. -/
theorem c2_counterexample :
    Server.pageMergedItems ⟨0, []⟩ exPageC2 =
      [⟨2, 1, Kind.text, "a"⟩, ⟨2, 1, Kind.text, "b"⟩] ∧
    ¬ ((⟨2, 1, Kind.text, "a"⟩ : Item).y < (⟨2, 1, Kind.text, "b"⟩ : Item).y ∨
       ((⟨2, 1, Kind.text, "a"⟩ : Item).y = (⟨2, 1, Kind.text, "b"⟩ : Item).y ∧
        (⟨2, 1, Kind.text, "a"⟩ : Item).x < (⟨2, 1, Kind.text, "b"⟩ : Item).x) ∨
       ((⟨2, 1, Kind.text, "a"⟩ : Item).y = (⟨2, 1, Kind.text, "b"⟩ : Item).y ∧
        (⟨2, 1, Kind.text, "a"⟩ : Item).x = (⟨2, 1, Kind.text, "b"⟩ : Item).x ∧
        (⟨2, 1, Kind.text, "a"⟩ : Item).kind = Kind.text ∧
        (⟨2, 1, Kind.text, "b"⟩ : Item).kind = Kind.image)) := by
  refine ⟨by decide, by decide⟩

/-- Claim C3 (amended): after discarding tokens with empty stripped text
or confidence below the threshold, each maximal run of consecutive
surviving tokens sharing the `(blockId, paragraphId, lineId)` triple
yields exactly one OCR line, whose text is the run's stripped word texts
joined by single spaces in emission order and whose top/left are the
minima over the run; a triple that reappears in a non-adjacent position
starts a new line rather than joining the earlier one. -/
theorem c3_ocr_grouping (toks : List OCRToken) (minConf : Int) :
    ocrRawLines toks minConf =
      (chunkRuns (toks.filter (survives minConf))).flatMap chunkLine ∧
    (∀ (t : OCRToken) (ts : List OCRToken), survives minConf t = true →
      (chunkLine (t, ts)).length = 1) :=
  ⟨ocrRawLines_eq_chunks minConf toks,
   fun t ts hs => chunkLine_length_of_survives minConf t ts hs⟩

/-- Claim C3 witness: the grouping equivalence evaluated on a concrete
token list at threshold 60. -/
theorem c3_witness :
    ocrRawLines exToksC3 60 =
      (chunkRuns (exToksC3.filter (survives 60))).flatMap chunkLine ∧
    (∀ (t : OCRToken) (ts : List OCRToken), survives 60 t = true →
      (chunkLine (t, ts)).length = 1) :=
  c3_ocr_grouping exToksC3 60

/-- Claim C3 counterexample: with tokens keyed `(1,1,1), (1,1,2), (1,1,1)`
(all surviving), the loop emits two separate lines for the triple
`(1,1,1)`, not the single line the claim requires. -/
theorem c3_counterexample :
    ((ocrRawLines exToksC3 60).filter (fun r => decide (r.key = (1, 1, 1)))).length = 2 ∧
    ¬ ((ocrRawLines exToksC3 60).filter
        (fun r => decide (r.key = (1, 1, 1)))).length = 1 := by
  refine ⟨by decide, by decide⟩

/-- Claim C4: the OCR fallback is invoked for a page (its OCR call list
is nonempty) if and only if the block loop produced no text content
item for that page. -/
theorem c4_ocr_gating (st : ExtractState) (i : Nat) (p : Page) :
    (Server.processPage st i p).2.calls ≠ [] ↔
      ¬ ∃ it ∈ Server.pageNativeItems st p, it.kind = Kind.text := by
  rw [Server.processPage_calls]
  unfold Server.pageOcrRes
  by_cases h : (Server.pageNativeItems st p).any (fun i => decide (i.kind = Kind.text)) = true
  · rw [if_pos h]
    simp only [List.any_eq_true, decide_eq_true_eq] at h
    simp [h]
  · rw [if_neg h]
    simp only [List.any_eq_true, decide_eq_true_eq] at h
    simp [h, ocrFallback_calls_ne_nil p]

/-- Claim C5: within the OCR fallback, pass 2 (`--psm 11`, threshold 55)
is invoked if and only if pass 1 (`--psm 6`, threshold 60) yields zero
lines; the fallback performs at most two OCR invocations, and so does a
page. -/
theorem c5_two_pass_fallback (st : ExtractState) (i : Nat) (p : Page) :
    ((ocrFallbackRun p).2 =
      if ocr_extract_lines_with_positions p.ocrPsm6 60 = []
      then [("6", (60 : Int)), ("11", 55)] else [("6", (60 : Int))]) ∧
    ((("11", (55 : Int)) ∈ (ocrFallbackRun p).2) ↔
      ocr_extract_lines_with_positions p.ocrPsm6 60 = []) ∧
    (ocrFallbackRun p).2.length ≤ 2 ∧
    (Server.processPage st i p).2.calls.length ≤ 2 := by
  refine ⟨?_, ?_, ocrFallback_calls_length p, ?_⟩
  · unfold ocrFallbackRun
    by_cases h : ocr_extract_lines_with_positions p.ocrPsm6 60 = []
    · simp [h]
    · simp [h]
  · unfold ocrFallbackRun
    by_cases h : ocr_extract_lines_with_positions p.ocrPsm6 60 = []
    · simp [h]
    · simp [h]
  · rw [Server.processPage_calls]
    unfold Server.pageOcrRes
    by_cases h : (Server.pageNativeItems st p).any (fun i => decide (i.kind = Kind.text)) = true
    · simp [h]
    · rw [if_neg h]
      exact ocrFallback_calls_length p

/-- Claim C6: across a whole run, the written files are exactly
`IMAGE_0001.png, IMAGE_0002.png, ..., IMAGE_000K.png` in that order,
where K is the final counter value and equals the number of files
written — so the allocated sequence numbers are exactly 1..K with no
gaps or repeats, monotonically increasing. -/
theorem c6_sequence_contiguity (d : List Page) :
    (Server.extract_pdf_images_and_text d).2.writes.map Prod.snd =
      Server.seqNames (Server.extract_pdf_images_and_text d).1.counter ∧
    (Server.extract_pdf_images_and_text d).2.writes.length =
      (Server.extract_pdf_images_and_text d).1.counter := by
  have h := (Server.extract_inv d).1
  refine ⟨h, ?_⟩
  have h2 := congrArg List.length h
  simpa [Server.seqNames] using h2

/-- Claim C7: every text item in a page's merged output has nonempty
text, still nonempty after trimming; empty native lines and empty OCR
lines contribute no item. -/
theorem c7_empty_line_suppression (st : ExtractState) (p : Page) (it : Item)
    (hmem : it ∈ Server.pageMergedItems st p) (hk : it.kind = Kind.text) :
    it.payload ≠ "" ∧ pyStrip it.payload ≠ "" := by
  unfold Server.pageMergedItems at hmem
  rw [mem_sortStable] at hmem
  rcases List.mem_append.mp hmem with h1 | h2
  · exact processBlocks_text_payload p.blocks st it h1 hk
  · rcases List.mem_map.mp h2 with ⟨l, hl, rfl⟩
    have hocr : l ∈ (ocrFallbackRun p).1 := by
      unfold Server.pageOcrRes at hl
      by_cases h : (Server.pageNativeItems st p).any (fun i => decide (i.kind = Kind.text)) = true
      · rw [if_pos h] at hl
        cases hl
      · rw [if_neg h] at hl
        exact hl
    exact fallback_lines_text_nonempty p l hocr

/-- Claim C7 witness: a page with the single native line `"hi"`. -/
theorem c7_witness :
    ((⟨0, 0, Kind.text, "hi"⟩ : Item) ∈ Server.pageMergedItems ⟨0, []⟩ exPageC7 ∧
      (⟨0, 0, Kind.text, "hi"⟩ : Item).kind = Kind.text) ∧
    ((⟨0, 0, Kind.text, "hi"⟩ : Item).payload ≠ "" ∧
      pyStrip (⟨0, 0, Kind.text, "hi"⟩ : Item).payload ≠ "") :=
  ⟨⟨by decide, by decide⟩,
   c7_empty_line_suppression ⟨0, []⟩ exPageC7 ⟨0, 0, Kind.text, "hi"⟩ (by decide) (by decide)⟩

/-- Claim C8 (amended): on the same document and OCR responses the two
copies of the pipeline emit the same sequence of output lines (same
headers, same content items in the same order) and write the same image
files; the serialized streams differ only in that `mineru_alternative.py`
writes every line with a trailing newline, so its file ends with one
extra newline compared to `server.py`'s joined string (they are equal
for an empty document). -/
theorem c8_pipelines_agree (d : List Page) :
    (Mineru.runExtraction d).2.writeStrs =
      (Server.extract_pdf_images_and_text d).2.txtLines.map (fun s => s ++ "\n") ∧
    (Mineru.runExtraction d).2.writes = (Server.extract_pdf_images_and_text d).2.writes ∧
    (d = [] → Mineru.fileText d = Server.txtContent d) ∧
    (d ≠ [] → Mineru.fileText d = Server.txtContent d ++ "\n") := by
  refine ⟨doc_eq_lines d ⟨0, []⟩ 0, doc_eq_writes d ⟨0, []⟩ 0, ?_, ?_⟩
  · intro h
    subst h
    rfl
  · intro h
    rcases d with _ | ⟨p, ps⟩
    · exact absurd rfl h
    · show writeAll (Mineru.processDoc ⟨0, []⟩ 0 (p :: ps)).2.writeStrs =
        pyJoin "\n" (Server.processDoc ⟨0, []⟩ 0 (p :: ps)).2.txtLines ++ "\n"
      rw [doc_eq_lines (p :: ps) ⟨0, []⟩ 0]
      exact writeAll_map_newline _ (server_txtLines_ne_nil ⟨0, []⟩ 0 p ps)

/-- Claim C8 witness: on a one-page document the mineru file equals the
server string plus one trailing newline. -/
theorem c8_witness :
    Mineru.fileText exDocC8 = Server.txtContent exDocC8 ++ "\n" :=
  (c8_pipelines_agree exDocC8).2.2.2 (by decide)

/-- Claim C8 counterexample: on a one-page document the two serialized
text streams are not byte-identical (the mineru file has a trailing
newline the server string lacks). -/
theorem c8_counterexample :
    Mineru.fileText exDocC8 ≠ Server.txtContent exDocC8 := by
  decide

/-- Claim C9: the extraction pipeline is a pure function of the document
and the OCR responses it carries, so two runs on the same input produce
the same text stream, the same `image_list`, and the same sequence of
written files. -/
theorem c9_determinism (d1 d2 : List Page) (h : d1 = d2) :
    Server.txtContent d1 = Server.txtContent d2 ∧
    (Server.extract_pdf_images_and_text d1).2.imageList =
      (Server.extract_pdf_images_and_text d2).2.imageList ∧
    (Server.extract_pdf_images_and_text d1).2.writes =
      (Server.extract_pdf_images_and_text d2).2.writes := by
  subst h
  exact ⟨rfl, rfl, rfl⟩

/-- Claim C9 witness: two runs on the empty document. -/
theorem c9_witness :
    Server.txtContent [] = Server.txtContent [] ∧
    (Server.extract_pdf_images_and_text []).2.imageList =
      (Server.extract_pdf_images_and_text []).2.imageList ∧
    (Server.extract_pdf_images_and_text []).2.writes =
      (Server.extract_pdf_images_and_text []).2.writes :=
  c9_determinism [] [] rfl

/-- Claim C10: a token whose confidence string fails to parse is given
confidence -1, and such tokens never contribute to any OCR line: at
both thresholds (60 for pass 1, 55 for pass 2) removing them first
leaves the output unchanged. -/
theorem c10_unparsed_conf (toks : List OCRToken) :
    (∀ (s : String) (l t b pn ln : Int),
      confVal ⟨s, none, l, t, b, pn, ln⟩ = -1) ∧
    ocr_extract_lines_with_positions (toks.filter (fun t => t.conf.isSome)) 60 =
      ocr_extract_lines_with_positions toks 60 ∧
    ocr_extract_lines_with_positions (toks.filter (fun t => t.conf.isSome)) 55 =
      ocr_extract_lines_with_positions toks 55 := by
  refine ⟨fun s l t b pn ln => rfl, ?_, ?_⟩
  · unfold ocr_extract_lines_with_positions
    rw [ocrRawLines_drop_unparsed 60 (by norm_num) toks]
  · unfold ocr_extract_lines_with_positions
    rw [ocrRawLines_drop_unparsed 55 (by norm_num) toks]
